import Mathlib

/-!
Verification of the STROTSS style-transfer optimization core
(src/parameter_optimization/strotss_org.py) against its natural-language
specification.  The Python source is shallowly embedded: pure numeric code
becomes functions over `ℚ` (combinatorial / pixel-exact parts) or `ℝ`
(parts that take square roots), numpy arrays become lists, and the external
bilinear resampling kernel is an abstract function parameter constrained
only by its output-shape contract.
-/

namespace Strotss

/-! ## Scale plan (function `strotss`, lines 420-425)

`scales = []; for scale in range(10): divisor = 2 ** scale;
 if min(w, h) // divisor >= 33: scales.insert(0, divisor)`
`s` is the shorter side of the content image. -/

def scalePlan (s : ℕ) : List ℕ :=
  (List.range 10).foldl
    (fun acc scale => if 33 ≤ s / 2 ^ scale then 2 ^ scale :: acc else acc) []

/-! ## CLI entry guard (`__main__`, lines 480-483)

`if args.resize_to < 2 ** 8: print("Resulution too low."); exit(1)`
runs before any image is loaded or any optimization starts. -/

inductive CliOutcome where
  | exitWith (code : ℕ) (msg : String)
  | runOptimization

def cliMain (resizeTo : ℤ) : CliOutcome :=
  if resizeTo < 2 ^ 8 then CliOutcome.exitWith 1 "Resulution too low."
  else CliOutcome.runOptimization

/-! ## Spatial sampler (`sample_indices`, lines 160-175)

`const = 128 ** 2`, `big_size = H * W`,
`stride_x = int(max(math.floor(math.sqrt(big_size // const)), 1))`,
`stride_y = int(max(math.ceil (math.sqrt(big_size // const)), 1))`,
random offsets in `[0, stride)`, then
`np.meshgrid(np.arange(H)[offset_x::stride_x], np.arange(W)[offset_y::stride_y])`
flattened.  The random offsets are passed in explicitly. -/

def sampleConst : ℕ := 128 ^ 2

/-- Exact ceiling of the square root of a natural number,
modelling `math.ceil(math.sqrt n)`. -/
def ceilSqrt (n : ℕ) : ℕ :=
  if Nat.sqrt n * Nat.sqrt n = n then Nat.sqrt n else Nat.sqrt n + 1

def stride_x (H W : ℕ) : ℕ := max (Nat.sqrt (H * W / sampleConst)) 1

def stride_y (H W : ℕ) : ℕ := max (ceilSqrt (H * W / sampleConst)) 1

/-- The slice `np.arange(n)[off::s]`. -/
def strided (n off s : ℕ) : List ℕ :=
  (List.range ((n - off + s - 1) / s)).map (fun k => off + k * s)

/-- `sample_indices`: the flattened meshgrid of the two strided ranges;
first component is the `xx` array (values from `arange(H)`), second the
`xy` array (values from `arange(W)`). -/
def sample_indices (H W offx offy : ℕ) : List ℕ × List ℕ :=
  let xs := strided H offx (stride_x H W)
  let ys := strided W offy (stride_y H W)
  (ys.bind fun _ => xs, ys.bind fun y => xs.map fun _ => y)

/-! ## Per-iteration reshuffle (`optimize`, lines 392-402)

`xx, xy = sample_indices(...)` once per scale, then in the loop:
`if it % 1 == 0 and it != 0: np.random.shuffle(xx); np.random.shuffle(xy)`.
The two in-place shuffles draw independent permutations; they are modelled
as index lists `p`, `q` that are permutations of `range n`. -/

def applyPerm (p : List ℕ) (l : List ℕ) : List ℕ := p.map fun i => l.getD i 0

def shuffle_step (it : ℕ) (p q : List ℕ) (xx xy : List ℕ) : List ℕ × List ℕ :=
  if it % 1 = 0 ∧ it ≠ 0 then (applyPerm p xx, applyPerm q xy) else (xx, xy)

/-! ### Helper lemmas -/

lemma strided_length (n off s : ℕ) :
    (strided n off s).length = (n - off + s - 1) / s := by
  simp [strided]

lemma bind_const_length {α β : Type} (l : List α) (xs : List β) :
    (l.bind fun _ => xs).length = l.length * xs.length := by
  induction l with
  | nil => simp
  | cons a t ih =>
    have hstep : ((a :: t).bind fun _ => xs) = xs ++ (t.bind fun _ => xs) := by
      simp [List.bind]
    rw [hstep, List.length_append, ih, List.length_cons, Nat.succ_mul, Nat.add_comm]

lemma sample_indices_fst_length (H W offx offy : ℕ) :
    (sample_indices H W offx offy).1.length =
      (strided W offy (stride_y H W)).length * (strided H offx (stride_x H W)).length := by
  show ((strided W offy (stride_y H W)).bind fun _ => strided H offx (stride_x H W)).length = _
  exact bind_const_length _ _

lemma bind_map_const_length {α : Type} (l : List α) (xs : List ℕ) :
    (l.bind fun y => xs.map fun _ => y).length = l.length * xs.length := by
  induction l with
  | nil => simp
  | cons a t ih =>
    have hstep : ((a :: t).bind fun y => xs.map fun _ => y) =
        (xs.map fun _ => a) ++ (t.bind fun y => xs.map fun _ => y) := by
      simp [List.bind]
    rw [hstep, List.length_append, List.length_map, ih, List.length_cons,
      Nat.succ_mul, Nat.add_comm]

lemma sample_indices_snd_length (H W offx offy : ℕ) :
    (sample_indices H W offx offy).2.length =
      (strided W offy (stride_y H W)).length * (strided H offx (stride_x H W)).length := by
  show ((strided W offy (stride_y H W)).bind
      fun y => (strided H offx (stride_x H W)).map fun _ => y).length = _
  exact bind_map_const_length _ _

lemma strided_mem_lt (n off s : ℕ) (hs : 0 < s) :
    ∀ v ∈ strided n off s, v < n := by
  intro v hv
  simp only [strided, List.mem_map, List.mem_range] at hv
  obtain ⟨k, hk, rfl⟩ := hv
  have hk1 : k + 1 ≤ (n - off + s - 1) / s := hk
  have h2 : (k + 1) * s ≤ n - off + s - 1 := by
    exact (Nat.le_div_iff_mul_le hs).1 hk1
  have hoff : off < n := by
    by_contra hno
    push_neg at hno
    have : n - off = 0 := Nat.sub_eq_zero_of_le hno
    rw [this] at h2
    have hs1 : s ≤ (k + 1) * s := Nat.le_mul_of_pos_left s (Nat.succ_pos k)
    omega
  have h3 : k * s + s ≤ n - off + s - 1 := by
    have : (k + 1) * s = k * s + s := by ring
    omega
  omega

lemma getLast?_foldl_plan (s : ℕ) (l : List ℕ) :
    ∀ acc : List ℕ, acc ≠ [] →
      ((l.foldl (fun acc scale => if 33 ≤ s / 2 ^ scale then 2 ^ scale :: acc else acc) acc).getLast?
        = acc.getLast? ∧
       l.foldl (fun acc scale => if 33 ≤ s / 2 ^ scale then 2 ^ scale :: acc else acc) acc ≠ []) := by
  induction l with
  | nil => intro acc hacc; exact ⟨rfl, hacc⟩
  | cons a t ih =>
    intro acc hacc
    simp only [List.foldl_cons]
    by_cases h : 33 ≤ s / 2 ^ a
    · rw [if_pos h]
      have hne : (2 ^ a :: acc) ≠ [] := by simp
      obtain ⟨h1, h2⟩ := ih (2 ^ a :: acc) hne
      refine ⟨?_, h2⟩
      rw [h1]
      cases acc with
      | nil => exact absurd rfl hacc
      | cons b bs => simp [List.getLast?_cons_cons]
    · rw [if_neg h]
      exact ih acc hacc

lemma scalePlan_mem (s : ℕ) : ∀ d ∈ scalePlan s, 33 ≤ s / d := by
  have key : ∀ (l : List ℕ) (acc : List ℕ), (∀ d ∈ acc, 33 ≤ s / d) →
      ∀ d ∈ l.foldl (fun acc scale => if 33 ≤ s / 2 ^ scale then 2 ^ scale :: acc else acc) acc,
        33 ≤ s / d := by
    intro l
    induction l with
    | nil => intro acc hacc; simpa using hacc
    | cons a t ih =>
      intro acc hacc
      simp only [List.foldl_cons]
      by_cases h : 33 ≤ s / 2 ^ a
      · rw [if_pos h]
        refine ih _ ?_
        intro d hd
        rcases List.mem_cons.1 hd with h1 | h1
        · subst h1; exact h
        · exact hacc d h1
      · rw [if_neg h]
        exact ih acc hacc
  exact key (List.range 10) [] (by intro d hd; simp at hd)

/-! ### Claim theorems -/

/-- C4 (counterexample): for a content image with shorter side 10 the
generated scale plan is empty, so it has no finest scale of factor 1 —
the claim fails for images whose shorter side is below 33. -/
theorem C4_counterexample : ¬ ((scalePlan 10).getLast? = some 1) := by decide

/-- C4 (amended): every divisor in the scale plan satisfies
`S // divisor >= 33`, and provided the shorter side is at least 33 the
finest (last) scale factor is 1; for smaller images the plan is empty. -/
theorem C4_scale_plan (s : ℕ) :
    (∀ d ∈ scalePlan s, 33 ≤ s / d) ∧ (33 ≤ s → (scalePlan s).getLast? = some 1) := by
  refine ⟨scalePlan_mem s, ?_⟩
  intro hs
  have h10 : List.range 10 = 0 :: (List.range 9).map Nat.succ := by decide
  unfold scalePlan
  rw [h10]
  simp only [List.foldl_cons]
  have h0 : 33 ≤ s / 2 ^ 0 := by simpa using hs
  rw [if_pos h0]
  have := getLast?_foldl_plan s ((List.range 9).map Nat.succ) [2 ^ 0] (by simp)
  rw [this.1]
  simp

theorem C4_witness : (scalePlan 33).getLast? = some 1 :=
  (C4_scale_plan 33).2 (by decide)

/-- C9: a requested long-edge resize target below the minimum of 256 makes
the CLI entry point terminate with exit status 1 and the printed message,
without reaching the optimization branch (and without raising). -/
theorem C9_cli_guard (r : ℤ) (h : r < 256) :
    cliMain r = CliOutcome.exitWith 1 "Resulution too low." ∧
      cliMain r ≠ CliOutcome.runOptimization := by
  have h' : r < 2 ^ 8 := by norm_num; exact h
  have hcli : cliMain r = CliOutcome.exitWith 1 "Resulution too low." := by
    unfold cliMain; rw [if_pos h']
  exact ⟨hcli, by rw [hcli]; intro hEq; exact CliOutcome.noConfusion hEq⟩

theorem C9_witness : cliMain 200 = CliOutcome.exitWith 1 "Resulution too low." :=
  (C9_cli_guard 200 (by decide)).1

/-- C3 (counterexample): on a 257 by 257 grid the strides are 2 and 2, and
with the random horizontal offset equal to 1 the sampler returns
128 * 129 coordinate pairs, not ceil(257/2) * ceil(257/2) = 129 * 129 —
the claimed count formula ignores the random offsets. -/
theorem C3_counterexample :
    ¬ ((sample_indices 257 257 1 0).1.length =
        (257 + stride_x 257 257 - 1) / stride_x 257 257 *
          ((257 + stride_y 257 257 - 1) / stride_y 257 257)) := by
  have hq : 257 * 257 / sampleConst = 4 := by norm_num [sampleConst]
  have hsq : Nat.sqrt 4 = 2 := by
    have h4 : (4 : ℕ) = 2 ^ 2 := by norm_num
    rw [h4, Nat.sqrt_eq']
  have hsx : stride_x 257 257 = 2 := by rw [stride_x, hq, hsq]; decide
  have hsy : stride_y 257 257 = 2 := by rw [stride_y, hq, ceilSqrt, hsq]; decide
  rw [sample_indices_fst_length, strided_length, strided_length, hsx, hsy]
  decide

/-- C3 (amended): for any grid of height H and width W and any random
offsets below the computed strides, the sampler returns exactly
ceil((H - offset_x)/stride_x) * ceil((W - offset_y)/stride_y) coordinate
pairs, and every returned coordinate lies within the grid bounds. -/
theorem C3_sampler (H W offx offy : ℕ)
    (hx : offx < stride_x H W) (hy : offy < stride_y H W) :
    ((sample_indices H W offx offy).1.length =
        (H - offx + stride_x H W - 1) / stride_x H W *
          ((W - offy + stride_y H W - 1) / stride_y H W)) ∧
    ((sample_indices H W offx offy).2.length =
        (H - offx + stride_x H W - 1) / stride_x H W *
          ((W - offy + stride_y H W - 1) / stride_y H W)) ∧
    (∀ v ∈ (sample_indices H W offx offy).1, v < H) ∧
    (∀ v ∈ (sample_indices H W offx offy).2, v < W) := by
  have hsx : 0 < stride_x H W := lt_of_le_of_lt (Nat.zero_le _) hx
  have hsy : 0 < stride_y H W := lt_of_le_of_lt (Nat.zero_le _) hy
  refine ⟨?_, ?_, ?_, ?_⟩
  · rw [sample_indices_fst_length, strided_length, strided_length, Nat.mul_comm]
  · rw [sample_indices_snd_length, strided_length, strided_length, Nat.mul_comm]
  · intro v hv
    simp only [sample_indices, List.mem_bind] at hv
    obtain ⟨y, _, hvx⟩ := hv
    exact strided_mem_lt H offx (stride_x H W) hsx v hvx
  · intro v hv
    simp only [sample_indices, List.mem_bind, List.mem_map] at hv
    obtain ⟨y, hyin, a, hain, rfl⟩ := hv
    exact strided_mem_lt W offy (stride_y H W) hsy y hyin

theorem C3_witness : (sample_indices 4 4 0 0).1.length = 16 := by
  have h := (C3_sampler 4 4 0 0 (by decide) (by decide)).1
  rw [h]; decide

/-! ### Reshuffle lemmas (C6) -/

lemma map_getD_range (l : List ℕ) :
    (List.range l.length).map (fun i => l.getD i 0) = l := by
  induction l with
  | nil => rfl
  | cons a t ih =>
    rw [List.length_cons, List.range_succ_eq_map, List.map_cons, List.map_map]
    have hcomp : ((fun i => (a :: t).getD i 0) ∘ Nat.succ) = fun i => t.getD i 0 := by
      funext i; rfl
    rw [hcomp, ih]
    rfl

lemma applyPerm_perm (p l : List ℕ) (hp : List.Perm p (List.range l.length)) :
    List.Perm (applyPerm p l) l := by
  have h1 : List.Perm (p.map fun i => l.getD i 0)
      ((List.range l.length).map fun i => l.getD i 0) := List.Perm.map _ hp
  rw [map_getD_range] at h1
  exact h1

/-- C6 (counterexample): within a scale the two coordinate arrays are
shuffled independently, so after a reshuffle the multiset of
(row, column) coordinate pairs need not equal the original sample set:
starting from the sample set of a 2-by-2 grid, permuting `xx` by
`[0,2,1,3]` while leaving `xy` fixed duplicates the pair (0, 0). -/
theorem C6_counterexample :
    ¬ (Multiset.ofList
        (List.zip (shuffle_step 1 [0, 2, 1, 3] [0, 1, 2, 3]
            (sample_indices 2 2 0 0).1 (sample_indices 2 2 0 0).2).1
          (shuffle_step 1 [0, 2, 1, 3] [0, 1, 2, 3]
            (sample_indices 2 2 0 0).1 (sample_indices 2 2 0 0).2).2) =
      Multiset.ofList (List.zip (sample_indices 2 2 0 0).1 (sample_indices 2 2 0 0).2)) := by
  decide

/-- C6 (amended): the reshuffle is skipped on iteration 0, and on every
other iteration each coordinate array is only permuted — the shuffled `xx`
is a permutation of the original `xx` and likewise for `xy` — so each
axis's multiset of coordinate values is preserved; the multiset of
(row, column) pairs, however, is not preserved in general because the two
arrays are shuffled by independent permutations. -/
theorem C6_reshuffle (it : ℕ) (p q xx xy : List ℕ)
    (hp : List.Perm p (List.range xx.length))
    (hq : List.Perm q (List.range xy.length)) :
    (it = 0 → shuffle_step it p q xx xy = (xx, xy)) ∧
    List.Perm (shuffle_step it p q xx xy).1 xx ∧
    List.Perm (shuffle_step it p q xx xy).2 xy := by
  refine ⟨?_, ?_, ?_⟩
  · intro h0
    subst h0
    simp [shuffle_step]
  · by_cases h : it % 1 = 0 ∧ it ≠ 0
    · rw [shuffle_step, if_pos h]
      exact applyPerm_perm p xx hp
    · rw [shuffle_step, if_neg h]
  · by_cases h : it % 1 = 0 ∧ it ≠ 0
    · rw [shuffle_step, if_pos h]
      exact applyPerm_perm q xy hq
    · rw [shuffle_step, if_neg h]

theorem C6_witness :
    List.Perm (shuffle_step 1 [1, 0] [0, 1] [5, 7] [8, 9]).1 [5, 7] :=
  (C6_reshuffle 1 [1, 0] [0, 1] [5, 7] [8, 9] (by decide) (by decide)).2.1

/-! ## Laplacian pyramid (`laplacian`, `make_laplace_pyramid`,
`fold_laplace_pyramid`, lines 137-157)

A tensor with one channel batch is modelled as a rational grid; the
bilinear `tensor_resample` is an abstract parameter `rs`, constrained only
by its contract that the output has the requested spatial shape.  The
exact-arithmetic model makes no rounding error, so the round-trip identity
below is exact for every resampling kernel. -/

@[ext]
structure Img where
  h : ℕ
  w : ℕ
  data : ℕ → ℕ → ℚ

def imgAdd (a b : Img) : Img := ⟨a.h, a.w, fun i j => a.data i j + b.data i j⟩

def imgSub (a b : Img) : Img := ⟨a.h, a.w, fun i j => a.data i j - b.data i j⟩

/-- `laplacian(x) = x - upsample(downsample(x))`, line 139:
`x - tensor_resample(tensor_resample(x, [h // 2, w // 2]), [h, w])`. -/
def laplacian (rs : Img → ℕ → ℕ → Img) (x : Img) : Img :=
  imgSub x (rs (rs x (x.h / 2) (x.w / 2)) x.h x.w)

/-- `make_laplace_pyramid`, lines 142-149: `levels` high-frequency bands
followed by the final residual, the running image being downsampled by
`tensor_resample(current, (max(h // 2, 1), max(w // 2, 1)))` each level. -/
def make_laplace_pyramid (rs : Img → ℕ → ℕ → Img) : Img → ℕ → List Img
  | x, 0 => [x]
  | x, levels + 1 =>
      laplacian rs x :: make_laplace_pyramid rs (rs x (max (x.h / 2) 1) (max (x.w / 2) 1)) levels

/-- `fold_laplace_pyramid`, lines 152-157: start from the residual and
repeatedly upsample to the next band's shape and add that band. -/
def fold_laplace_pyramid (rs : Img → ℕ → ℕ → Img) : List Img → Img
  | [] => ⟨0, 0, fun _ _ => 0⟩
  | [x] => x
  | b :: rest => imgAdd b (rs (fold_laplace_pyramid rs rest) b.h b.w)

lemma make_laplace_pyramid_ne_nil (rs : Img → ℕ → ℕ → Img) (x : Img) (levels : ℕ) :
    make_laplace_pyramid rs x levels ≠ [] := by
  cases levels with
  | zero => simp [make_laplace_pyramid]
  | succ n => simp [make_laplace_pyramid]

lemma fold_cons (rs : Img → ℕ → ℕ → Img) (b : Img) (rest : List Img) (h : rest ≠ []) :
    fold_laplace_pyramid rs (b :: rest) =
      imgAdd b (rs (fold_laplace_pyramid rs rest) b.h b.w) := by
  cases rest with
  | nil => exact absurd rfl h
  | cons c r => rfl

/-- C5: in the exact-arithmetic model, reconstructing the Laplacian
pyramid recovers the original image exactly (round-trip error 0, which is
within any tolerance), for every resampling kernel satisfying the shape
contract, provided every intermediate level has spatial extent at least 2
(shorter side at least 2 to the number of levels). -/
theorem C5_pyramid_roundtrip (rs : Img → ℕ → ℕ → Img)
    (hrs : ∀ x a b, (rs x a b).h = a ∧ (rs x a b).w = b)
    (x : Img) (levels : ℕ) (hh : 2 ^ levels ≤ x.h) (hw : 2 ^ levels ≤ x.w) :
    fold_laplace_pyramid rs (make_laplace_pyramid rs x levels) = x := by
  induction levels generalizing x with
  | zero => rfl
  | succ n ih =>
    have hh2 : 2 ≤ x.h := le_trans (by simpa using Nat.pow_le_pow_right (by norm_num) (Nat.succ_le_succ (Nat.zero_le n))) hh
    have hw2 : 2 ≤ x.w := le_trans (by simpa using Nat.pow_le_pow_right (by norm_num) (Nat.succ_le_succ (Nat.zero_le n))) hw
    have hmaxh : max (x.h / 2) 1 = x.h / 2 :=
      Nat.max_eq_left (Nat.one_le_div_iff (by norm_num) |>.2 hh2)
    have hmaxw : max (x.w / 2) 1 = x.w / 2 :=
      Nat.max_eq_left (Nat.one_le_div_iff (by norm_num) |>.2 hw2)
    have hdh : 2 ^ n ≤ (rs x (max (x.h / 2) 1) (max (x.w / 2) 1)).h := by
      rw [(hrs x _ _).1, hmaxh]
      exact (Nat.le_div_iff_mul_le (by norm_num)).2 (by rw [← pow_succ]; exact hh)
    have hdw : 2 ^ n ≤ (rs x (max (x.h / 2) 1) (max (x.w / 2) 1)).w := by
      rw [(hrs x _ _).2, hmaxw]
      exact (Nat.le_div_iff_mul_le (by norm_num)).2 (by rw [← pow_succ]; exact hw)
    rw [make_laplace_pyramid,
      fold_cons rs _ _ (make_laplace_pyramid_ne_nil rs _ n),
      ih _ hdh hdw]
    have hshape : (laplacian rs x).h = x.h ∧ (laplacian rs x).w = x.w := ⟨rfl, rfl⟩
    rw [hshape.1, hshape.2, hmaxh, hmaxw]
    ext i j
    · rfl
    · rfl
    · simp [imgAdd, imgSub, laplacian]

def rsZero : Img → ℕ → ℕ → Img := fun _ a b => ⟨a, b, fun _ _ => 0⟩

def imgTest : Img := ⟨2, 2, fun i j => (i : ℚ) + 2 * j⟩

theorem C5_witness :
    fold_laplace_pyramid rsZero (make_laplace_pyramid rsZero imgTest 1) = imgTest :=
  C5_pyramid_roundtrip rsZero (fun x a b => ⟨rfl, rfl⟩) imgTest 1 (by decide) (by decide)

/-! ## Feature gatherer (`spatial_feature_extract`, lines 178-232)

A feature map (one captured extractor layer, batch 1) is a `C`-channel
`H`-by-`W` rational grid.  The source gathers from the flattened view at
flat indices `row * W + col` with both parts already clamped into range,
which decodes to direct `(row, col)` indexing; the bilinear weights are
computed from the fractional parts of the unclamped coordinates.  The
source runs the identical loop simultaneously for the result and content
feature lists with the same coordinates; a single list is modelled. -/

structure FMap where
  C : ℕ
  H : ℕ
  W : ℕ
  data : ℕ → ℕ → ℕ → ℚ

def clipZ (v hi : ℤ) : ℤ := max 0 (min hi v)

/-- One bilinear sample of channel `c` of layer `f` at (possibly
fractional) coordinates `(x, y)`, lines 192-215. -/
def bilinearAt (f : FMap) (c : ℕ) (x y : ℚ) : ℚ :=
  let xm : ℤ := Int.floor x
  let ym : ℤ := Int.floor y
  let xr : ℚ := x - xm
  let yr : ℚ := y - ym
  let x0 : ℤ := clipZ xm ((f.H : ℤ) - 1)
  let y0 : ℤ := clipZ ym ((f.W : ℤ) - 1)
  let x1 : ℤ := clipZ (x0 + 1) ((f.H : ℤ) - 1)
  let y1 : ℤ := clipZ (y0 + 1) ((f.W : ℤ) - 1)
  (1 - xr) * (1 - yr) * f.data c x0.toNat y0.toNat
    + (1 - xr) * yr * f.data c x0.toNat y1.toNat
    + xr * (1 - yr) * f.data c x1.toNat y0.toNat
    + xr * yr * f.data c x1.toNat y1.toNat

/-- The per-layer loop of `spatial_feature_extract` (lines 183-222):
halve the working coordinates at each resolution drop, bilinearly sample
every channel, and recurse; returns the channel-major sampled blocks
together with the final (mutated) coordinate arrays. -/
def sfeLoop : Option ℕ → List FMap → List ℚ → List ℚ →
    List (List ℚ) × List ℚ × List ℚ
  | _, [], xx, xy => ([], xx, xy)
  | prev, f :: rest, xx, xy =>
      let halve : Bool := match prev with
        | some p => decide (f.H < p)
        | none => false
      let xx1 := if halve then xx.map (fun v => v / 2) else xx
      let xy1 := if halve then xy.map (fun v => v / 2) else xy
      let chans := (List.range f.C).map fun c =>
        (xx1.zip xy1).map fun pt => bilinearAt f c pt.1 pt.2
      let r := sfeLoop (some f.H) rest xx1 xy1
      (chans ++ r.1, r.2)

/-- `spatial_feature_extract` output bundle for one feature list
(lines 224-231): the concatenated per-layer sampled channels with the
final coordinate arrays appended as two trailing channels. -/
def spatial_feature_extract (feat : List FMap) (xx xy : List ℚ) : List (List ℚ) :=
  let r := sfeLoop none feat xx xy
  r.1 ++ [r.2.1, r.2.2]

/-- Number of resolution-halving boundaries the loop encounters. -/
def numHalvings : Option ℕ → List FMap → ℕ
  | _, [] => 0
  | none, f :: rest => numHalvings (some f.H) rest
  | some p, f :: rest => (if f.H < p then 1 else 0) + numHalvings (some f.H) rest

lemma sfeLoop_coords (feat : List FMap) :
    ∀ (prev : Option ℕ) (xx xy : List ℚ),
      (sfeLoop prev feat xx xy).2.1 = xx.map (fun v => v / 2 ^ numHalvings prev feat) ∧
      (sfeLoop prev feat xx xy).2.2 = xy.map (fun v => v / 2 ^ numHalvings prev feat) := by
  induction feat with
  | nil =>
    intro prev xx xy
    constructor <;> · simp [sfeLoop, numHalvings]
  | cons f rest ih =>
    intro prev xx xy
    have step : ∀ (l : List ℚ) (k : ℕ),
        (l.map fun v => v / 2).map (fun v => v / 2 ^ k) = l.map fun v => v / 2 ^ (k + 1) := by
      intro l k
      rw [List.map_map]
      apply List.map_congr_left
      intro a _
      show a / 2 / 2 ^ k = a / 2 ^ (k + 1)
      rw [div_div, pow_succ, mul_comm]
    cases prev with
    | none =>
      have h := ih (some f.H) xx xy
      constructor
      · show (sfeLoop (some f.H) rest xx xy).2.1 = _
        rw [h.1]; rfl
      · show (sfeLoop (some f.H) rest xx xy).2.2 = _
        rw [h.2]; rfl
    | some p =>
      by_cases hp : f.H < p
      · have h := ih (some f.H) (xx.map fun v => v / 2) (xy.map fun v => v / 2)
        constructor
        · show (sfeLoop (some f.H) rest
              (if (decide (f.H < p) : Bool) then xx.map (fun v => v / 2) else xx)
              (if (decide (f.H < p) : Bool) then xy.map (fun v => v / 2) else xy)).2.1 = _
          rw [if_pos (by simpa using hp), if_pos (by simpa using hp), h.1, step,
            numHalvings, if_pos hp]
          simp [Nat.add_comm]
        · show (sfeLoop (some f.H) rest
              (if (decide (f.H < p) : Bool) then xx.map (fun v => v / 2) else xx)
              (if (decide (f.H < p) : Bool) then xy.map (fun v => v / 2) else xy)).2.2 = _
          rw [if_pos (by simpa using hp), if_pos (by simpa using hp), h.2, step,
            numHalvings, if_pos hp]
          simp [Nat.add_comm]
      · have h := ih (some f.H) xx xy
        constructor
        · show (sfeLoop (some f.H) rest
              (if (decide (f.H < p) : Bool) then xx.map (fun v => v / 2) else xx)
              (if (decide (f.H < p) : Bool) then xy.map (fun v => v / 2) else xy)).2.1 = _
          rw [if_neg (by simpa using hp), if_neg (by simpa using hp), h.1,
            numHalvings, if_neg hp]
          simp
        · show (sfeLoop (some f.H) rest
              (if (decide (f.H < p) : Bool) then xx.map (fun v => v / 2) else xx)
              (if (decide (f.H < p) : Bool) then xy.map (fun v => v / 2) else xy)).2.2 = _
          rw [if_neg (by simpa using hp), if_neg (by simpa using hp), h.2,
            numHalvings, if_neg hp]
          simp

/-- C2 (counterexample): with two zero-channel layers whose second layer
has half the resolution of the first, the gathered bundle's trailing
channels hold the coordinate 1 = 2 / 2, not the finest-grid coordinate 2:
the trailing channels are not in finest-grid units. -/
theorem C2_counterexample :
    ¬ (spatial_feature_extract
          [⟨0, 4, 4, fun _ _ _ => 0⟩, ⟨0, 2, 2, fun _ _ _ => 0⟩] [2] [2] =
        (sfeLoop none [⟨0, 4, 4, fun _ _ _ => 0⟩, ⟨0, 2, 2, fun _ _ _ => 0⟩] [2] [2]).1 ++
          [[2], [2]]) := by
  norm_num [spatial_feature_extract, sfeLoop]

/-- C2 (amended): the gathered bundle is the per-layer bilinearly sampled
channel blocks concatenated in extractor layer order, followed by the two
coordinate arrays as the two trailing channels — but the trailing
coordinates are in the units of the deepest layer, i.e. the finest-grid
coordinates divided by 2 for every resolution-halving boundary, not in
finest-grid units. -/
theorem C2_bundle_layout (feat : List FMap) (xx xy : List ℚ) :
    spatial_feature_extract feat xx xy =
      (sfeLoop none feat xx xy).1 ++
        [xx.map (fun v => v / 2 ^ numHalvings none feat),
         xy.map (fun v => v / 2 ^ numHalvings none feat)] := by
  have h := sfeLoop_coords feat none xx xy
  rw [spatial_feature_extract]
  rw [h.1, h.2]

/-! ## Style hypercolumn sampler and channel bookkeeping
(`Vgg16_Extractor`, lines 19-75, and `calculate_loss`, lines 339-362)

`forward_samples_hypercolumn` (lines 44-75) samples every captured layer
at integer coordinates (halved at each resolution drop, then clipped and
truncated to layer bounds) and concatenates the per-layer samples along
the channel dimension.  The extractor itself is the external torchvision
VGG16; only its per-layer output channel counts matter here. -/

/-- `self.capture_layers = [1, 3, 6, 8, 11, 13, 15, 22, 29]`, line 26. -/
def capture_layers : List ℕ := [1, 3, 6, 8, 11, 13, 15, 22, 29]

/-- Modelled from the spec: the output channel count of sublayer `i` of
the external torchvision `vgg16().features` extractor (an off-the-shelf
import, not part of this repository).  Convolutions at indices 0, 2 emit
64 channels, 5, 7 emit 128, 10, 12, 14 emit 256 and all deeper ones 512;
ReLU and pooling layers preserve the channel count of the preceding
convolution. -/
def vgg16_out_channels (i : ℕ) : ℕ :=
  if i ≤ 4 then 64 else if i ≤ 9 then 128 else if i ≤ 16 then 256 else 512

/-- Channel counts of the captured feature list `feat`: the raw 3-channel
input image (line 30, `feat = [x]`) followed by the captured layers. -/
def vggFeatChannels : List ℕ := 3 :: capture_layers.map vgg16_out_channels

/-- `feat_max = 3 + 2 * 64 + 128 * 2 + 256 * 3 + 512 * 2`, line 348. -/
def feat_max : ℕ := 3 + 2 * 64 + 128 * 2 + 256 * 3 + 512 * 2

/-- `forward_samples_hypercolumn` per-layer loop (lines 58-74): halve the
coordinates at each resolution drop, clip them into the layer bounds and
truncate to integers (the truncated values feed the next layer), sample
every channel at the integer coordinates, and concatenate channel-wise. -/
def hypercolumn : Option ℕ → List FMap → List ℚ → List ℚ → List (List ℚ)
  | _, [], _, _ => []
  | prev, f :: rest, xx, xy =>
      let halve : Bool := match prev with
        | some p => decide (f.H < p)
        | none => false
      let xx1 := if halve then xx.map (fun v => v / 2) else xx
      let xy1 := if halve then xy.map (fun v => v / 2) else xy
      let xxc := xx1.map fun v => clipZ (Int.floor v) ((f.H : ℤ) - 1)
      let xyc := xy1.map fun v => clipZ (Int.floor v) ((f.W : ℤ) - 1)
      let chans := (List.range f.C).map fun c =>
        (xxc.zip xyc).map fun pt => f.data c pt.1.toNat pt.2.toNat
      chans ++ hypercolumn (some f.H) rest
        (xxc.map fun z => (z : ℚ)) (xyc.map fun z => (z : ℚ))

lemma hypercolumn_length (feat : List FMap) :
    ∀ (prev : Option ℕ) (xx xy : List ℚ),
      (hypercolumn prev feat xx xy).length = (feat.map FMap.C).sum := by
  induction feat with
  | nil => intro prev xx xy; rfl
  | cons f rest ih =>
    intro prev xx xy
    show ((List.range f.C).map _ ++ hypercolumn (some f.H) rest _ _).length = _
    rw [List.length_append, List.length_map, List.length_range, ih]
    simp

lemma sfeLoop_fst_length (feat : List FMap) :
    ∀ (prev : Option ℕ) (xx xy : List ℚ),
      (sfeLoop prev feat xx xy).1.length = (feat.map FMap.C).sum := by
  induction feat with
  | nil => intro prev xx xy; rfl
  | cons f rest ih =>
    intro prev xx xy
    show ((List.range f.C).map _ ++ (sfeLoop (some f.H) rest _ _).1).length = _
    rw [List.length_append, List.length_map, List.length_range, ih]
    simp

/-- C10: the hand-summed constant `feat_max` equals the total channel
count of the captured feature list (raw 3-channel input plus all nine
captured VGG16 layers, in total 2179), which is exactly the channel count
of the style hypercolumn bundle, and the gathered result bundle carries
exactly `feat_max + 2` channels — so the style term's `[:feat_max]` prefix
slice selects every feature channel and excludes exactly the two trailing
coordinate channels, and the moment term's `[:, :-2]` slice matches the
style bundle's channel count. -/
theorem C10_channel_accounting :
    (feat_max = vggFeatChannels.sum ∧ vggFeatChannels.sum = 2179) ∧
    (∀ (feat : List FMap) (xx xy : List ℚ), feat.map FMap.C = vggFeatChannels →
      (hypercolumn none feat xx xy).length = feat_max) ∧
    (∀ (feat : List FMap) (xx xy : List ℚ), feat.map FMap.C = vggFeatChannels →
      (spatial_feature_extract feat xx xy).length = feat_max + 2) := by
  have hsum : vggFeatChannels.sum = 2179 := by decide
  have hfm : feat_max = vggFeatChannels.sum := by decide
  refine ⟨⟨hfm, hsum⟩, ?_, ?_⟩
  · intro feat xx xy hC
    rw [hypercolumn_length feat none xx xy, hC, ← hfm]
  · intro feat xx xy hC
    rw [spatial_feature_extract]
    show ((sfeLoop none feat xx xy).1 ++ [_, _]).length = _
    rw [List.length_append, sfeLoop_fst_length feat none xx xy, hC, ← hfm]
    rfl

def vggTestLayers : List FMap := vggFeatChannels.map fun c => ⟨c, 1, 1, fun _ _ _ => 0⟩

theorem C10_witness :
    (hypercolumn none vggTestLayers [] []).length = feat_max ∧
      (spatial_feature_extract vggTestLayers [] []).length = feat_max + 2 :=
  ⟨C10_channel_accounting.2.1 vggTestLayers [] [] (by decide),
   C10_channel_accounting.2.2 vggTestLayers [] [] (by decide)⟩

/-! ## Finalization (`strotss`, lines 450-457)

`clow, chigh = (-1, 1)` for the `uniform` optimization space, else
`(-1.7, 1.7)`; the result is clamped, resampled to the full content
resolution, shifted by its minimum, divided by the maximum of the shifted
image and scaled by 255.  The trailing `np.uint8` quantization of
`np_to_pil` is outside the model. -/

def clampQ (lo hi x : ℚ) : ℚ := min hi (max lo x)

def imgClamp (lo hi : ℚ) (img : Img) : Img :=
  ⟨img.h, img.w, fun i j => clampQ lo hi (img.data i j)⟩

/-- Row-major list of all pixel values of an image. -/
def pixels (img : Img) : List ℚ :=
  (List.range img.h).bind fun i => (List.range img.w).map fun j => img.data i j

/-- Minimum of a list (with a default for the empty list), modelling
`np.ndarray.min()` on a nonempty array. -/
def lminD {α : Type} [LinearOrder α] (z : α) : List α → α
  | [] => z
  | a :: t => t.foldl min a

def lmaxD {α : Type} [LinearOrder α] (z : α) : List α → α
  | [] => z
  | a :: t => t.foldl max a

def clow (uniform : Bool) : ℚ := if uniform then -1 else -(17 / 10)

def chigh (uniform : Bool) : ℚ := if uniform then 1 else 17 / 10

/-- The clamped result resampled to the full content resolution
(line 453). -/
def finalizeResampled (rs : Img → ℕ → ℕ → Img) (uniform : Bool) (result : Img)
    (fullH fullW : ℕ) : Img :=
  rs (imgClamp (clow uniform) (chigh uniform) result) fullH fullW

/-- Lines 450-457: clamp, resample to the original resolution, subtract
the minimum, divide by the maximum of the shifted image, scale by 255. -/
def strotss_finalize (rs : Img → ℕ → ℕ → Img) (uniform : Bool) (result : Img)
    (fullH fullW : ℕ) : Img :=
  let r := finalizeResampled rs uniform result fullH fullW
  let m := lminD 0 (pixels r)
  let shifted : Img := ⟨r.h, r.w, fun i j => r.data i j - m⟩
  let m2 := lmaxD 0 (pixels shifted)
  ⟨shifted.h, shifted.w, fun i j => shifted.data i j / m2 * 255⟩

/-! ### Lemmas for min/max of mapped pixel lists -/

lemma foldl_min_map {α β : Type} [LinearOrder α] [LinearOrder β]
    (f : α → β) (hf : Monotone f) (t : List α) :
    ∀ a, (t.map f).foldl min (f a) = f (t.foldl min a) := by
  induction t with
  | nil => intro a; rfl
  | cons b t' ih =>
    intro a
    show ((t'.map f).foldl min (min (f a) (f b))) = _
    rw [← hf.map_min, ih]
    rfl

lemma foldl_max_map {α β : Type} [LinearOrder α] [LinearOrder β]
    (f : α → β) (hf : Monotone f) (t : List α) :
    ∀ a, (t.map f).foldl max (f a) = f (t.foldl max a) := by
  induction t with
  | nil => intro a; rfl
  | cons b t' ih =>
    intro a
    show ((t'.map f).foldl max (max (f a) (f b))) = _
    rw [← hf.map_max, ih]
    rfl

lemma lminD_map {α β : Type} [LinearOrder α] [LinearOrder β]
    (f : α → β) (hf : Monotone f) (z : α) (z' : β) (l : List α) (hl : l ≠ []) :
    lminD z' (l.map f) = f (lminD z l) := by
  cases l with
  | nil => exact absurd rfl hl
  | cons a t => exact foldl_min_map f hf t a

lemma lmaxD_map {α β : Type} [LinearOrder α] [LinearOrder β]
    (f : α → β) (hf : Monotone f) (z : α) (z' : β) (l : List α) (hl : l ≠ []) :
    lmaxD z' (l.map f) = f (lmaxD z l) := by
  cases l with
  | nil => exact absurd rfl hl
  | cons a t => exact foldl_max_map f hf t a

lemma length_bind_const_len {α β : Type} (l : List α) (g : α → List β) (n : ℕ)
    (h : ∀ a ∈ l, (g a).length = n) :
    (l.bind g).length = l.length * n := by
  induction l with
  | nil => simp
  | cons a t ih =>
    have hstep : ((a :: t).bind g) = g a ++ t.bind g := by simp [List.bind]
    rw [hstep, List.length_append, h a (List.mem_cons_self a t),
      ih (fun b hb => h b (List.mem_cons_of_mem a hb)), List.length_cons,
      Nat.succ_mul, Nat.add_comm]

lemma pixels_length (img : Img) : (pixels img).length = img.h * img.w := by
  unfold pixels
  rw [length_bind_const_len _ _ img.w (fun a _ => by
    rw [List.length_map, List.length_range]), List.length_range]

lemma pixels_map (r : Img) (f : ℚ → ℚ) :
    pixels ⟨r.h, r.w, fun i j => f (r.data i j)⟩ = (pixels r).map f := by
  simp only [pixels, List.map_bind, List.map_map]
  rfl

lemma pixels_ne_nil (img : Img) (hh : 1 ≤ img.h) (hw : 1 ≤ img.w) :
    pixels img ≠ [] := by
  intro hend
  have := pixels_length img
  rw [hend] at this
  simp at this
  rcases this with h | h <;> omega

/-- C8: the finalization clamps to the optimization-space range
((-1, 1) for `uniform`, (-1.7, 1.7) otherwise), resamples to the original
full content resolution, and then min-max renormalizes: provided the
resampled clamped image is not constant, the output's pixel minimum is
exactly 0 and its maximum exactly 255 — a contrast stretch spanning the
full output range, not merely a clamp. -/
theorem C8_finalize (rs : Img → ℕ → ℕ → Img)
    (hrs : ∀ x a b, (rs x a b).h = a ∧ (rs x a b).w = b)
    (uniform : Bool) (result : Img) (fullH fullW : ℕ)
    (hH : 1 ≤ fullH) (hW : 1 ≤ fullW)
    (hlt : lminD 0 (pixels (finalizeResampled rs uniform result fullH fullW)) <
        lmaxD 0 (pixels (finalizeResampled rs uniform result fullH fullW))) :
    (strotss_finalize rs uniform result fullH fullW).h = fullH ∧
    (strotss_finalize rs uniform result fullH fullW).w = fullW ∧
    (lminD 0 (pixels (strotss_finalize rs uniform result fullH fullW)) = 0 ∧
     lmaxD 0 (pixels (strotss_finalize rs uniform result fullH fullW)) = 255) ∧
    (∀ i j, clow uniform ≤ (imgClamp (clow uniform) (chigh uniform) result).data i j ∧
        (imgClamp (clow uniform) (chigh uniform) result).data i j ≤ chigh uniform) := by
  set r := finalizeResampled rs uniform result fullH fullW with hr
  have hshape := hrs (imgClamp (clow uniform) (chigh uniform) result) fullH fullW
  have hrh : r.h = fullH := hshape.1
  have hrw : r.w = fullW := hshape.2
  set m := lminD 0 (pixels r) with hm
  set M := lmaxD 0 (pixels r) with hM
  have hne : pixels r ≠ [] := pixels_ne_nil r (hrh ▸ hH) (hrw ▸ hW)
  -- the shifted image and its pixel list
  have hfmono : Monotone (fun v : ℚ => v - m) := fun a b hab => sub_le_sub_right hab m
  have hpixshift : pixels ⟨r.h, r.w, fun i j => r.data i j - m⟩ =
      (pixels r).map fun v => v - m := pixels_map r fun v => v - m
  have hshiftne : pixels ⟨r.h, r.w, fun i j => r.data i j - m⟩ ≠ [] := by
    apply pixels_ne_nil
    · show 1 ≤ r.h
      rw [hrh]; exact hH
    · show 1 ≤ r.w
      rw [hrw]; exact hW
  have hm2 : lmaxD 0 (pixels ⟨r.h, r.w, fun i j => r.data i j - m⟩) = M - m := by
    rw [hpixshift, lmaxD_map (fun v => v - m) hfmono 0 0 (pixels r) hne]
  have hm2pos : (0 : ℚ) < M - m := by
    rw [hm, hM] at hlt ⊢
    exact sub_pos.2 hlt
  -- the output image
  have hgmono : Monotone (fun v : ℚ => v / (M - m) * 255) := by
    intro a b hab
    have h1 : a / (M - m) ≤ b / (M - m) := (div_le_div_right hm2pos).2 hab
    exact mul_le_mul_of_nonneg_right h1 (by norm_num)
  have hout : strotss_finalize rs uniform result fullH fullW =
      ⟨r.h, r.w, fun i j => (r.data i j - m) / (M - m) * 255⟩ := by
    show (⟨r.h, r.w, fun i j =>
        (r.data i j - lminD 0 (pixels r)) /
          lmaxD 0 (pixels ⟨r.h, r.w, fun i j => r.data i j - lminD 0 (pixels r)⟩) * 255⟩ : Img) = _
    rw [← hm, hm2]
  have hpixout : pixels (strotss_finalize rs uniform result fullH fullW) =
      (pixels r).map fun v => (v - m) / (M - m) * 255 := by
    rw [hout]
    exact pixels_map r fun v => (v - m) / (M - m) * 255
  have hcomp : (fun v : ℚ => (v - m) / (M - m) * 255) =
      (fun v : ℚ => v / (M - m) * 255) ∘ fun v : ℚ => v - m := rfl
  refine ⟨by rw [hout]; exact hrh, by rw [hout]; exact hrw, ⟨?_, ?_⟩, ?_⟩
  · rw [hpixout, hcomp, ← List.map_map,
      lminD_map (fun v => v / (M - m) * 255) hgmono 0 0 _ (by
        rw [← hpixshift]; exact hshiftne),
      lminD_map (fun v => v - m) hfmono 0 0 (pixels r) hne, ← hm]
    simp
  · rw [hpixout, hcomp, ← List.map_map,
      lmaxD_map (fun v => v / (M - m) * 255) hgmono 0 0 _ (by
        rw [← hpixshift]; exact hshiftne),
      lmaxD_map (fun v => v - m) hfmono 0 0 (pixels r) hne, ← hM]
    rw [div_self (ne_of_gt hm2pos)]
    norm_num
  · intro i j
    have hlohi : clow uniform ≤ chigh uniform := by
      cases uniform <;> norm_num [clow, chigh]
    constructor
    · show clow uniform ≤ clampQ (clow uniform) (chigh uniform) (result.data i j)
      exact le_min hlohi (le_max_left _ _)
    · show clampQ (clow uniform) (chigh uniform) (result.data i j) ≤ chigh uniform
      exact min_le_left _ _

def rsCoord : Img → ℕ → ℕ → Img := fun _ a b => ⟨a, b, fun _ j => (j : ℚ)⟩

def imgZero : Img := ⟨1, 1, fun _ _ => 0⟩

theorem C8_witness :
    lminD 0 (pixels (strotss_finalize rsCoord true imgZero 1 2)) = 0 ∧
      lmaxD 0 (pixels (strotss_finalize rsCoord true imgZero 1 2)) = 255 :=
  (C8_finalize rsCoord (fun x a b => ⟨rfl, rfl⟩) true imgZero 1 2
    (by norm_num) (by norm_num)
    (by norm_num [finalizeResampled, rsCoord, pixels, lminD, lmaxD, List.range_succ])).2.2.1

/-! ## Loss engine over the reals
(`pairwise_distances_cos`, `pairwise_distances_sq_l2`, `distmat`,
`content_loss`, `rgb_to_yuv`, `style_loss`, lines 235-308)

A feature-vector bundle is a list of sample rows, each row the channel
vector of one sample point — the result of the source's
`(1, d, n, 1) -> (n, d)` transpose-and-view reshape at the top of
`content_loss` and `style_loss`.  Square roots force the model into `ℝ`. -/

noncomputable section

def dotR (x y : List ℝ) : ℝ := (List.zipWith (· * ·) x y).sum

/-- One entry of `pairwise_distances_cos` (lines 235-240):
`1 - mm(x, y_t) / x_norm / y_norm`. -/
def cosEntry (x y : List ℝ) : ℝ :=
  1 - dotR x y / Real.sqrt (dotR x x) / Real.sqrt (dotR y y)

def pairwise_distances_cos (X Y : List (List ℝ)) : List (List ℝ) :=
  X.map fun x => Y.map fun y => cosEntry x y

/-- `torch.clamp(v, lo, hi)`. -/
def clampR (v lo hi : ℝ) : ℝ := min hi (max lo v)

/-- One entry of `pairwise_distances_sq_l2` (lines 243-248):
`clamp(x_norm + y_norm - 2 * mm(x, y_t), 1e-5, 1e5) / x.size(1)`. -/
def sqL2Entry (d : ℕ) (x y : List ℝ) : ℝ :=
  clampR (dotR x x + dotR y y - 2 * dotR x y) (1 / 100000) 100000 / (d : ℝ)

def pairwise_distances_sq_l2 (d : ℕ) (X Y : List (List ℝ)) : List (List ℝ) :=
  X.map fun x => Y.map fun y => sqL2Entry d x y

/-- `distmat` (lines 251-256): cosine distances, or the square root of the
clamped channel-normalized squared Euclidean distances. -/
def distmat (d : ℕ) (X Y : List (List ℝ)) (cos_d : Bool) : List (List ℝ) :=
  if cos_d then pairwise_distances_cos X Y
  else (pairwise_distances_sq_l2 d X Y).map (List.map Real.sqrt)

/-- The `[:, :-2]` channel slice of lines 265-266. -/
def drop2cols (X : List (List ℝ)) : List (List ℝ) :=
  X.map fun r => r.take (r.length - 2)

/-- `torch.abs(Mx - My).mean()` for two matrices of equal shape. -/
def meanAbsDiffMat (A B : List (List ℝ)) : ℝ :=
  (List.zipWith (fun r1 r2 => List.zipWith (fun a b => |a - b|) r1 r2) A B).join.sum /
    ((List.zipWith (fun r1 r2 => List.zipWith (fun a b => |a - b|) r1 r2) A B).join.length : ℝ)

/-- `content_loss` (lines 259-277): drop the two trailing coordinate
channels, build the two self-distance matrices with `distmat`'s default
`cos_d=True`, and take the mean absolute difference. -/
def content_loss (X Y : List (List ℝ)) : ℝ :=
  meanAbsDiffMat
    (distmat ((drop2cols X).headD []).length (drop2cols X) (drop2cols X) true)
    (distmat ((drop2cols Y).headD []).length (drop2cols Y) (drop2cols Y) true)

/-- Follows the claim's wording, not the source: the content-term
distance matrices taken as the channel-normalized Euclidean distance with
the clamped argument under the root, i.e. `distmat` with `cos_d=False`. -/
def content_loss_claimed (X Y : List (List ℝ)) : ℝ :=
  meanAbsDiffMat
    (distmat ((drop2cols X).headD []).length (drop2cols X) (drop2cols X) false)
    (distmat ((drop2cols Y).headD []).length (drop2cols Y) (drop2cols Y) false)

/-- `rgb_to_yuv` (lines 280-285) applied to one sample's 3-channel row. -/
def rgb_to_yuv (v : List ℝ) : List ℝ :=
  match v with
  | [r, g, b] =>
      [0.577350 * r + 0.577350 * g + 0.577350 * b,
       -0.577350 * r + 0.788675 * g - 0.211325 * b,
       -0.577350 * r - 0.211325 * g + 0.788675 * b]
  | other => other

def meanR (l : List ℝ) : ℝ := l.sum / (l.length : ℝ)

/-- `CX_M.min(0)`: per-column minima of an `|X|`-by-`n` matrix. -/
def colMins (M : List (List ℝ)) (n : ℕ) : List ℝ :=
  (List.range n).map fun j => lminD 0 (M.map fun row => row.getD j 0)

/-- The cross distance matrix of `style_loss` (lines 288-301): cosine
distances of the (YUV-transformed, when `d = 3`) rows, plus the rooted
clamped Euclidean distances when `d = 3`. -/
def style_cross_mat (d : ℕ) (X Y : List (List ℝ)) : List (List ℝ) :=
  let Xp := if d = 3 then X.map rgb_to_yuv else X
  let Yp := if d = 3 then Y.map rgb_to_yuv else Y
  if d = 3 then
    List.zipWith (fun r1 r2 => List.zipWith (fun a b => a + b) r1 r2)
      (distmat d Xp Yp true) (distmat d Xp Yp false)
  else distmat d Xp Yp true

/-- `style_loss` (lines 288-308): the relaxed earth-mover distance
`remd = max(m1.mean(), m2.mean())` of the row-wise and column-wise minima
of the cross distance matrix. -/
def style_loss (d : ℕ) (X Y : List (List ℝ)) : ℝ :=
  max (meanR ((style_cross_mat d X Y).map (lminD 0)))
    (meanR (colMins (style_cross_mat d X Y) Y.length))

end

/-! ### Nonnegativity of the cross distance matrix -/

lemma dotR_self_nonneg (x : List ℝ) : 0 ≤ dotR x x := by
  induction x with
  | nil => simp [dotR]
  | cons a t ih =>
    have hstep : dotR (a :: t) (a :: t) = a * a + dotR t t := rfl
    rw [hstep]
    nlinarith [sq_nonneg a]

lemma dotR_sq_le (x : List ℝ) : ∀ y : List ℝ, dotR x y ^ 2 ≤ dotR x x * dotR y y := by
  induction x with
  | nil =>
    intro y
    have h0 : dotR [] y = 0 := rfl
    rw [h0]
    simp [dotR]
  | cons a t ih =>
    intro y
    cases y with
    | nil =>
      have h0 : dotR (a :: t) [] = 0 := rfl
      have h1 : dotR ([] : List ℝ) [] = 0 := rfl
      rw [h0, h1, mul_zero]
      simp
    | cons b u =>
      have hxy : dotR (a :: t) (b :: u) = a * b + dotR t u := rfl
      have hxx : dotR (a :: t) (a :: t) = a * a + dotR t t := rfl
      have hyy : dotR (b :: u) (b :: u) = b * b + dotR u u := rfl
      rw [hxy, hxx, hyy]
      have ihd := ih u
      have hs := dotR_self_nonneg t
      have ht := dotR_self_nonneg u
      rcases eq_or_lt_of_le ht with h0 | hpos
      · have hd0 : dotR t u = 0 := by
          have h1 : dotR t u ^ 2 ≤ dotR t t * dotR u u := ihd
          rw [← h0, mul_zero] at h1
          have h2 : dotR t u ^ 2 = 0 := le_antisymm h1 (sq_nonneg _)
          exact pow_eq_zero_iff (by norm_num) |>.1 h2
        rw [hd0, ← h0]
        nlinarith [mul_nonneg hs (sq_nonneg b)]
      · nlinarith [sq_nonneg (a * dotR u u - b * dotR t u),
          mul_nonneg (add_nonneg (sq_nonneg b) (le_of_lt hpos)) (sub_nonneg.2 ihd), hpos]

lemma dotR_le_sqrt_mul (x y : List ℝ) :
    dotR x y ≤ Real.sqrt (dotR x x) * Real.sqrt (dotR y y) := by
  have h1 : dotR x y ≤ |dotR x y| := le_abs_self _
  have h2 : |dotR x y| = Real.sqrt (dotR x y ^ 2) := (Real.sqrt_sq_eq_abs _).symm
  have h3 : Real.sqrt (dotR x y ^ 2) ≤ Real.sqrt (dotR x x * dotR y y) :=
    Real.sqrt_le_sqrt (dotR_sq_le x y)
  have h4 : Real.sqrt (dotR x x * dotR y y) =
      Real.sqrt (dotR x x) * Real.sqrt (dotR y y) :=
    Real.sqrt_mul (dotR_self_nonneg x) _
  linarith

lemma cosEntry_nonneg (x y : List ℝ) : 0 ≤ cosEntry x y := by
  unfold cosEntry
  rcases eq_or_lt_of_le (Real.sqrt_nonneg (dotR x x)) with hx0 | hxpos
  · rw [← hx0, div_zero, zero_div]
    norm_num
  · rcases eq_or_lt_of_le (Real.sqrt_nonneg (dotR y y)) with hy0 | hypos
    · rw [← hy0, div_zero]
      norm_num
    · have hle : dotR x y / Real.sqrt (dotR x x) / Real.sqrt (dotR y y) ≤ 1 := by
        rw [div_div]
        exact (div_le_one (mul_pos hxpos hypos)).2 (dotR_le_sqrt_mul x y)
      linarith

lemma foldl_min_nonneg (t : List ℝ) :
    ∀ a : ℝ, 0 ≤ a → (∀ v ∈ t, 0 ≤ v) → 0 ≤ t.foldl min a := by
  induction t with
  | nil => intro a ha _; exact ha
  | cons b u ih =>
    intro a ha hmem
    show 0 ≤ u.foldl min (min a b)
    exact ih (min a b) (le_min ha (hmem b (List.mem_cons_self b u)))
      (fun v hv => hmem v (List.mem_cons_of_mem b hv))

lemma lminD_nonneg (l : List ℝ) (h : ∀ v ∈ l, 0 ≤ v) : 0 ≤ lminD 0 l := by
  cases l with
  | nil => exact le_refl 0
  | cons a t =>
    exact foldl_min_nonneg t a (h a (List.mem_cons_self a t))
      (fun v hv => h v (List.mem_cons_of_mem a hv))

lemma meanR_nonneg (l : List ℝ) (h : ∀ v ∈ l, 0 ≤ v) : 0 ≤ meanR l :=
  div_nonneg (List.sum_nonneg h) (Nat.cast_nonneg _)

lemma forall_mem_zipWith {α β γ : Type} {P : α → Prop} {Q : β → Prop} {R : γ → Prop}
    (f : α → β → γ) :
    ∀ (l1 : List α) (l2 : List β), (∀ a ∈ l1, P a) → (∀ b ∈ l2, Q b) →
      (∀ a b, P a → Q b → R (f a b)) → ∀ c ∈ List.zipWith f l1 l2, R c := by
  intro l1
  induction l1 with
  | nil => intro l2 _ _ _ c hc; simp at hc
  | cons a t ih =>
    intro l2 h1 h2 hf c hc
    cases l2 with
    | nil => simp at hc
    | cons b u =>
      rw [List.zipWith_cons_cons] at hc
      rcases List.mem_cons.1 hc with h | h
      · subst h
        exact hf a b (h1 a (List.mem_cons_self a t)) (h2 b (List.mem_cons_self b u))
      · exact ih u (fun a' ha' => h1 a' (List.mem_cons_of_mem a ha'))
          (fun b' hb' => h2 b' (List.mem_cons_of_mem b hb')) hf c h

lemma getD_nonneg (row : List ℝ) (h : ∀ v ∈ row, 0 ≤ v) :
    ∀ j : ℕ, 0 ≤ row.getD j 0 := by
  induction row with
  | nil => intro j; simp [List.getD]
  | cons a t ih =>
    intro j
    cases j with
    | zero => exact h a (List.mem_cons_self a t)
    | succ n =>
      show 0 ≤ t.getD n 0
      exact ih (fun v hv => h v (List.mem_cons_of_mem a hv)) n

lemma style_cross_mat_nonneg (d : ℕ) (X Y : List (List ℝ)) :
    ∀ row ∈ style_cross_mat d X Y, ∀ v ∈ row, 0 ≤ v := by
  intro row hrow
  unfold style_cross_mat at hrow
  by_cases hd : d = 3
  · simp only [if_pos hd] at hrow
    intro v hv
    refine forall_mem_zipWith (P := fun r => ∀ u ∈ r, 0 ≤ u) (Q := fun r => ∀ u ∈ r, 0 ≤ u)
      (R := fun r => ∀ u ∈ r, 0 ≤ u) _ _ _ ?_ ?_ ?_ row hrow v hv
    · intro r hr u hu
      rcases List.mem_map.1 hr with ⟨x, _, rfl⟩
      rcases List.mem_map.1 hu with ⟨y, _, rfl⟩
      exact cosEntry_nonneg x y
    · intro r hr u hu
      rcases List.mem_map.1 hr with ⟨r0, _, rfl⟩
      rcases List.mem_map.1 hu with ⟨a, _, rfl⟩
      exact Real.sqrt_nonneg a
    · intro r1 r2 h1 h2 u hu
      refine forall_mem_zipWith (P := fun a => 0 ≤ a) (Q := fun a => 0 ≤ a)
        (R := fun a => 0 ≤ a) _ _ _ h1 h2 (fun a b ha hb => add_nonneg ha hb) u hu
  · simp only [if_neg hd] at hrow
    intro v hv
    rcases List.mem_map.1 hrow with ⟨x, _, rfl⟩
    rcases List.mem_map.1 hv with ⟨y, _, rfl⟩
    exact cosEntry_nonneg x y

/-- C7: for every pair of feature-vector bundles with non-zero rows, the
relaxed transport style loss equals the larger of the mean of the
row-wise minima and the mean of the column-wise minima of the cross
distance matrix, and this value is non-negative (every entry of the cross
distance matrix is non-negative: the cosine term by Cauchy-Schwarz, the
rooted Euclidean term trivially). -/
theorem C7_style_loss (d : ℕ) (X Y : List (List ℝ)) (hX : X ≠ []) (hY : Y ≠ [])
    (hXr : ∀ r ∈ X, ∃ v ∈ r, v ≠ 0) (hYr : ∀ r ∈ Y, ∃ v ∈ r, v ≠ 0) :
    style_loss d X Y =
      max (meanR ((style_cross_mat d X Y).map (lminD 0)))
        (meanR (colMins (style_cross_mat d X Y) Y.length)) ∧
    0 ≤ style_loss d X Y := by
  constructor
  · rfl
  · have hmat := style_cross_mat_nonneg d X Y
    have h1 : 0 ≤ meanR ((style_cross_mat d X Y).map (lminD 0)) := by
      apply meanR_nonneg
      intro v hv
      rcases List.mem_map.1 hv with ⟨row, hrow, rfl⟩
      exact lminD_nonneg row (hmat row hrow)
    show 0 ≤ max (meanR ((style_cross_mat d X Y).map (lminD 0)))
      (meanR (colMins (style_cross_mat d X Y) Y.length))
    exact le_trans h1 (le_max_left _ _)

theorem C7_witness : 0 ≤ style_loss 2 [[3, 4]] [[3, 4]] :=
  (C7_style_loss 2 [[3, 4]] [[3, 4]] (by simp) (by simp)
    (by
      intro r hr
      have hr' : r = [3, 4] := by simpa using hr
      subst hr'
      exact ⟨3, by simp, by norm_num⟩)
    (by
      intro r hr
      have hr' : r = [3, 4] := by simpa using hr
      subst hr'
      exact ⟨3, by simp, by norm_num⟩)).2

/-! ### Content-loss shape lemmas and claim theorems (C1) -/

lemma join_length_const {α : Type} (D : List (List α)) (n : ℕ)
    (h : ∀ r ∈ D, r.length = n) : D.join.length = D.length * n := by
  induction D with
  | nil => simp
  | cons r t ih =>
    have hstep : (r :: t).join = r ++ t.join := by simp
    rw [hstep, List.length_append, h r (List.mem_cons_self r t),
      ih (fun s hs => h s (List.mem_cons_of_mem r hs)), List.length_cons,
      Nat.succ_mul, Nat.add_comm]

/-- C1 (amended): the content-term distance matrices are the cosine
distance matrices (one minus the inner product divided by the two vector
norms) of the bundles with the two trailing coordinate channels dropped —
not the clamped channel-normalized Euclidean matrices — and the content
loss is the mean absolute difference between the two matrices, i.e. their
entrywise absolute differences summed and divided by the squared bundle
row count. -/
theorem C1_content_loss (X Y : List (List ℝ)) (h : X.length = Y.length) :
    content_loss X Y =
      (List.zipWith (fun r1 r2 => List.zipWith (fun a b => |a - b|) r1 r2)
          (pairwise_distances_cos (drop2cols X) (drop2cols X))
          (pairwise_distances_cos (drop2cols Y) (drop2cols Y))).join.sum /
        ((X.length : ℝ) * (X.length : ℝ)) := by
  have hdX : distmat ((drop2cols X).headD []).length (drop2cols X) (drop2cols X) true =
      pairwise_distances_cos (drop2cols X) (drop2cols X) := rfl
  have hdY : distmat ((drop2cols Y).headD []).length (drop2cols Y) (drop2cols Y) true =
      pairwise_distances_cos (drop2cols Y) (drop2cols Y) := rfl
  unfold content_loss meanAbsDiffMat
  rw [hdX, hdY]
  congr 1
  have hlenA : (pairwise_distances_cos (drop2cols X) (drop2cols X)).length = X.length := by
    simp [pairwise_distances_cos, drop2cols]
  have hlenB : (pairwise_distances_cos (drop2cols Y) (drop2cols Y)).length = X.length := by
    simp [pairwise_distances_cos, drop2cols, ← h]
  have hrowsA : ∀ r ∈ pairwise_distances_cos (drop2cols X) (drop2cols X),
      r.length = X.length := by
    intro r hr
    rcases List.mem_map.1 hr with ⟨x, _, rfl⟩
    simp [drop2cols]
  have hrowsB : ∀ r ∈ pairwise_distances_cos (drop2cols Y) (drop2cols Y),
      r.length = X.length := by
    intro r hr
    rcases List.mem_map.1 hr with ⟨x, _, rfl⟩
    simp [drop2cols, ← h]
  have hrowsD : ∀ r ∈ List.zipWith (fun r1 r2 => List.zipWith (fun a b => |a - b|) r1 r2)
      (pairwise_distances_cos (drop2cols X) (drop2cols X))
      (pairwise_distances_cos (drop2cols Y) (drop2cols Y)), r.length = X.length := by
    refine forall_mem_zipWith (P := fun r : List ℝ => r.length = X.length)
      (Q := fun r : List ℝ => r.length = X.length)
      (R := fun r : List ℝ => r.length = X.length)
      _ _ _ hrowsA hrowsB ?_
    intro r1 r2 h1 h2
    rw [List.length_zipWith, h1, h2, min_self]
  have hlenD : (List.zipWith (fun r1 r2 => List.zipWith (fun a b => |a - b|) r1 r2)
      (pairwise_distances_cos (drop2cols X) (drop2cols X))
      (pairwise_distances_cos (drop2cols Y) (drop2cols Y))).length = X.length := by
    rw [List.length_zipWith, hlenA, hlenB, min_self]
  rw [join_length_const _ X.length hrowsD, hlenD]
  push_cast
  ring

lemma absdiff_self_sum (r : List ℝ) :
    (List.zipWith (fun a b => |a - b|) r r).sum = 0 := by
  induction r with
  | nil => simp
  | cons a u ihr => rw [List.zipWith_cons_cons, List.sum_cons, ihr]; simp

lemma absdiff_self_join_sum (M : List (List ℝ)) :
    (List.zipWith (fun r1 r2 => List.zipWith (fun a b => |a - b|) r1 r2) M M).join.sum = 0 := by
  induction M with
  | nil => simp
  | cons r t ih =>
    rw [List.zipWith_cons_cons]
    have hstep : (List.zipWith (fun a b => |a - b|) r r ::
        List.zipWith (fun r1 r2 => List.zipWith (fun a b => |a - b|) r1 r2) t t).join =
        List.zipWith (fun a b => |a - b|) r r ++
          (List.zipWith (fun r1 r2 => List.zipWith (fun a b => |a - b|) r1 r2) t t).join := by
      simp
    rw [hstep, List.sum_append, ih, absdiff_self_sum]
    simp

theorem C1_witness : content_loss [[1, 0, 0, 0]] [[1, 0, 0, 0]] = 0 := by
  have h := C1_content_loss [[1, 0, 0, 0]] [[1, 0, 0, 0]] rfl
  rw [h, absdiff_self_join_sum, zero_div]

lemma distmat_true (d : ℕ) (A B : List (List ℝ)) :
    distmat d A B true = pairwise_distances_cos A B := rfl

lemma distmat_false (d : ℕ) (A B : List (List ℝ)) :
    distmat d A B false = (pairwise_distances_sq_l2 d A B).map (List.map Real.sqrt) := rfl

lemma clampR_lo (x : ℝ) (hx : x ≤ 1 / 100000) : clampR x (1 / 100000) 100000 = 1 / 100000 := by
  unfold clampR
  rw [max_eq_left hx, min_eq_right (by norm_num)]

lemma clampR_id (x : ℝ) (h1 : 1 / 100000 ≤ x) (h2 : x ≤ 100000) :
    clampR x (1 / 100000) 100000 = x := by
  unfold clampR
  rw [max_eq_right h1, min_eq_right h2]

/-- C1 (counterexample): at the concrete point-aligned bundles
`[[1,0,9,9],[0,7,9,9]]` (result) and `[[1,0,9,9],[0,1,9,9]]` (content),
the content loss computed by the source — cosine distance matrices, both
equal to `[[0,1],[1,0]]` — is 0, while the claimed clamped-Euclidean
computation yields mean |[[m,5],[5,m]] - [[m,1],[1,m]]| = 2; the claim's
description of the content-term distance matrix is false on the code. -/
theorem C1_counterexample :
    content_loss [[1, 0, 9, 9], [0, 7, 9, 9]] [[1, 0, 9, 9], [0, 1, 9, 9]] ≠
      content_loss_claimed [[1, 0, 9, 9], [0, 7, 9, 9]] [[1, 0, 9, 9], [0, 1, 9, 9]] := by
  -- dot products
  have d11 : dotR [(1 : ℝ), 0] [1, 0] = 1 := by norm_num [dotR]
  have d17 : dotR [(1 : ℝ), 0] [0, 7] = 0 := by norm_num [dotR]
  have d71 : dotR [(0 : ℝ), 7] [1, 0] = 0 := by norm_num [dotR]
  have d77 : dotR [(0 : ℝ), 7] [0, 7] = 49 := by norm_num [dotR]
  have d1b : dotR [(1 : ℝ), 0] [0, 1] = 0 := by norm_num [dotR]
  have db1 : dotR [(0 : ℝ), 1] [1, 0] = 0 := by norm_num [dotR]
  have dbb : dotR [(0 : ℝ), 1] [0, 1] = 1 := by norm_num [dotR]
  -- square roots
  have h49 : Real.sqrt 49 = 7 := by
    rw [show (49 : ℝ) = 7 * 7 by norm_num]
    exact Real.sqrt_mul_self (by norm_num)
  have h25 : Real.sqrt 25 = 5 := by
    rw [show (25 : ℝ) = 5 * 5 by norm_num]
    exact Real.sqrt_mul_self (by norm_num)
  -- cosine entries
  have c11 : cosEntry [(1 : ℝ), 0] [1, 0] = 0 := by
    unfold cosEntry
    rw [d11, Real.sqrt_one]
    norm_num
  have c17 : cosEntry [(1 : ℝ), 0] [0, 7] = 1 := by
    unfold cosEntry
    rw [d17]
    simp
  have c71 : cosEntry [(0 : ℝ), 7] [1, 0] = 1 := by
    unfold cosEntry
    rw [d71]
    simp
  have c77 : cosEntry [(0 : ℝ), 7] [0, 7] = 0 := by
    unfold cosEntry
    rw [d77, h49]
    norm_num
  have c1b : cosEntry [(1 : ℝ), 0] [0, 1] = 1 := by
    unfold cosEntry
    rw [d1b]
    simp
  have cb1 : cosEntry [(0 : ℝ), 1] [1, 0] = 1 := by
    unfold cosEntry
    rw [db1]
    simp
  have cbb : cosEntry [(0 : ℝ), 1] [0, 1] = 0 := by
    unfold cosEntry
    rw [dbb, Real.sqrt_one]
    norm_num
  -- squared-Euclidean entries (channel count d = 2)
  have s11 : sqL2Entry 2 [(1 : ℝ), 0] [1, 0] = 1 / 200000 := by
    unfold sqL2Entry
    rw [d11, show (1 : ℝ) + 1 - 2 * 1 = 0 by norm_num, clampR_lo 0 (by norm_num)]
    norm_num
  have s77 : sqL2Entry 2 [(0 : ℝ), 7] [0, 7] = 1 / 200000 := by
    unfold sqL2Entry
    rw [d77, show (49 : ℝ) + 49 - 2 * 49 = 0 by norm_num, clampR_lo 0 (by norm_num)]
    norm_num
  have s17 : sqL2Entry 2 [(1 : ℝ), 0] [0, 7] = 25 := by
    unfold sqL2Entry
    rw [d11, d77, d17, show (1 : ℝ) + 49 - 2 * 0 = 50 by norm_num,
      clampR_id 50 (by norm_num) (by norm_num)]
    norm_num
  have s71 : sqL2Entry 2 [(0 : ℝ), 7] [1, 0] = 25 := by
    unfold sqL2Entry
    rw [d77, d11, d71, show (49 : ℝ) + 1 - 2 * 0 = 50 by norm_num,
      clampR_id 50 (by norm_num) (by norm_num)]
    norm_num
  have sbb : sqL2Entry 2 [(0 : ℝ), 1] [0, 1] = 1 / 200000 := by
    unfold sqL2Entry
    rw [dbb, show (1 : ℝ) + 1 - 2 * 1 = 0 by norm_num, clampR_lo 0 (by norm_num)]
    norm_num
  have s1b : sqL2Entry 2 [(1 : ℝ), 0] [0, 1] = 1 := by
    unfold sqL2Entry
    rw [d11, dbb, d1b, show (1 : ℝ) + 1 - 2 * 0 = 2 by norm_num,
      clampR_id 2 (by norm_num) (by norm_num)]
    norm_num
  have sb1 : sqL2Entry 2 [(0 : ℝ), 1] [1, 0] = 1 := by
    unfold sqL2Entry
    rw [dbb, d11, db1, show (1 : ℝ) + 1 - 2 * 0 = 2 by norm_num,
      clampR_id 2 (by norm_num) (by norm_num)]
    norm_num
  -- the four matrices
  have hMx : pairwise_distances_cos [[(1 : ℝ), 0], [0, 7]] [[(1 : ℝ), 0], [0, 7]] =
      [[0, 1], [1, 0]] := by
    unfold pairwise_distances_cos
    simp only [List.map_cons, List.map_nil]
    rw [c11, c17, c71, c77]
  have hMy : pairwise_distances_cos [[(1 : ℝ), 0], [0, 1]] [[(1 : ℝ), 0], [0, 1]] =
      [[0, 1], [1, 0]] := by
    unfold pairwise_distances_cos
    simp only [List.map_cons, List.map_nil]
    rw [c11, c1b, cb1, cbb]
  have hNx : distmat 2 [[(1 : ℝ), 0], [0, 7]] [[(1 : ℝ), 0], [0, 7]] false =
      [[Real.sqrt (1 / 200000), 5], [5, Real.sqrt (1 / 200000)]] := by
    rw [distmat_false]
    unfold pairwise_distances_sq_l2
    simp only [List.map_cons, List.map_nil]
    rw [s11, s17, s71, s77, h25]
  have hNy : distmat 2 [[(1 : ℝ), 0], [0, 1]] [[(1 : ℝ), 0], [0, 1]] false =
      [[Real.sqrt (1 / 200000), 1], [1, Real.sqrt (1 / 200000)]] := by
    rw [distmat_false]
    unfold pairwise_distances_sq_l2
    simp only [List.map_cons, List.map_nil]
    rw [s11, s1b, sb1, sbb, Real.sqrt_one]
  -- evaluate both losses
  have hdropX : drop2cols [[(1 : ℝ), 0, 9, 9], [0, 7, 9, 9]] = [[1, 0], [0, 7]] := rfl
  have hdropY : drop2cols [[(1 : ℝ), 0, 9, 9], [0, 1, 9, 9]] = [[1, 0], [0, 1]] := rfl
  have hcode : content_loss [[1, 0, 9, 9], [0, 7, 9, 9]] [[1, 0, 9, 9], [0, 1, 9, 9]] = 0 := by
    unfold content_loss
    rw [hdropX, hdropY, distmat_true, distmat_true, hMx, hMy]
    unfold meanAbsDiffMat
    rw [absdiff_self_join_sum, zero_div]
  have hclaim : content_loss_claimed [[1, 0, 9, 9], [0, 7, 9, 9]]
      [[1, 0, 9, 9], [0, 1, 9, 9]] = 2 := by
    unfold content_loss_claimed
    rw [hdropX, hdropY]
    rw [show (([[(1 : ℝ), 0], [0, 7]] : List (List ℝ)).headD []).length = 2 from rfl,
      show (([[(1 : ℝ), 0], [0, 1]] : List (List ℝ)).headD []).length = 2 from rfl,
      hNx, hNy]
    have habs54 : |(5 : ℝ) - 1| = 4 := by
      rw [show (5 : ℝ) - 1 = 4 by norm_num]
      exact abs_of_nonneg (by norm_num)
    unfold meanAbsDiffMat
    simp only [List.zipWith_cons_cons, List.zipWith_nil_right, List.join_cons, List.join_nil]
    rw [sub_self, abs_zero, habs54]
    simp only [List.sum_append, List.sum_cons, List.sum_nil, List.length_append,
      List.length_cons, List.length_nil]
    norm_num
  rw [hcode, hclaim]
  norm_num

end Strotss
